import Mathlib

/-!
Verification of the pandoras-box stress-test load generator.

Shallow embedding of the transaction-construction, batching, signing,
statistics-collection and cross-chain-reconciliation code, with theorems
settling the frozen claims about it.  Each definition is annotated with the
source location it embeds.  JavaScript numbers / BigNumbers are modelled as
`Nat` (all quantities involved are non-negative and stay well below 2^53 or
are BigNumber-backed), byte buffers as `List Nat`, and nullable database
columns as `Option`.
-/

/-! ### Batcher.generateBatches (src/src/runtime/eoa.ts lines 355-367)

```ts
if (batchSize <= 0) { return []; }
const batches = [];
for (let i = 0; i < items.length; i += batchSize) {
    batches.push(items.slice(i, i + batchSize));
}
return batches;
```
The stride-`batchSize` loop runs `ceil(items.length / batchSize)` times and
iteration `i` pushes `items.slice(i*B, i*B + B)`; `slice(a, b)` is
`(drop a).take (b - a)`. -/
def generateBatches (items : List α) (batchSize : Nat) : List (List α) :=
  if batchSize = 0 then []
  else
    (List.range ((items.length + batchSize - 1) / batchSize)).map
      (fun i => (items.drop (i * batchSize)).take batchSize)

theorem generateBatches_flatten_aux (items : List α) (B : Nat) :
    ∀ k : Nat, ((List.range k).map
      (fun i => (items.drop (i * B)).take B)).flatten = items.take (k * B) := by
  intro k
  induction k with
  | zero => simp
  | succ k ih =>
      rw [List.range_succ, List.map_append, List.flatten_append, ih]
      simp only [List.map_cons, List.map_nil, List.flatten_cons, List.flatten_nil,
        List.append_nil]
      rw [← List.take_add]
      ring_nf

theorem ceil_mul_ge (len B : Nat) (hB : 1 ≤ B) : len ≤ (len + B - 1) / B * B := by
  rw [Nat.mul_comm]
  have h := Nat.div_add_mod (len + B - 1) B
  have h2 : (len + B - 1) % B < B := Nat.mod_lt _ (by omega)
  omega

/-- C6: `Batcher.generateBatches(items, B)` partitions `items` into contiguous
runs of length at most `B` whose concatenation is `items` (for `B ≥ 1`);
10 items with `B = 3` give batches `[0,1,2],[3,4,5],[6,7,8],[9]`, and `B = 0`
gives the empty batch list. -/
theorem generateBatches_partition {α : Type} (items : List α) (B : Nat) (hB : 1 ≤ B) :
    (generateBatches items B).flatten = items ∧
    (∀ b ∈ generateBatches items B, b.length ≤ B) ∧
    generateBatches items 0 = [] ∧
    generateBatches (List.range 10) 3 = [[0, 1, 2], [3, 4, 5], [6, 7, 8], [9]] := by
  refine ⟨?_, ?_, by simp [generateBatches], by decide⟩
  · rw [generateBatches, if_neg (by omega)]
    rw [generateBatches_flatten_aux]
    exact List.take_of_length_le (ceil_mul_ge _ _ hB)
  · intro b hb
    rw [generateBatches, if_neg (by omega)] at hb
    simp only [List.mem_map] at hb
    obtain ⟨i, _, rfl⟩ := hb
    simpa using Nat.min_le_left _ _

theorem generateBatches_partition_witness :
    (generateBatches (List.range 10) 3).flatten = List.range 10 ∧
    (∀ b ∈ generateBatches (List.range 10) 3, b.length ≤ 3) ∧
    generateBatches (List.range 10 : List Nat) 0 = [] ∧
    generateBatches (List.range 10) 3 = [[0, 1, 2], [3, 4, 5], [6, 7, 8], [9]] :=
  generateBatches_partition (List.range 10) 3 (by decide)

/-! ### WithdrawalRuntime.ConstructTransactions value formula
(src/src/runtime/withdrawal.ts lines 146-169)

```ts
const senderIndex = i % validAccounts.length;
...
value: this.defaultValue.add(BigNumber.from(senderIndex * 1e5 + i)).mul(1e10),
```
with `defaultValue = BigNumber.from(110000000)`.  The cross-chain listener
(src/unnamed/part_002 lines 452-457) derives the join key from the value:
```ts
let uid = (BigInt(tx.value.toString()) - BigInt(parseEther("0.1").toString())) / BigInt(1e10);
```
`parseEther("0.1")` is 10^17 wei. -/
def withdrawalValue (numAccounts i : Nat) : Nat :=
  (110000000 + ((i % numAccounts) * 100000 + i)) * 10000000000

def withdrawalUid (value : Nat) : Nat :=
  (value - 100000000000000000) / 10000000000

/-- C8 counterexample: with 11 ready accounts, transaction indices 1 and
100001 receive the same value (and hence the same derived uid), refuting
uniqueness for arbitrary `numTx`. -/
theorem withdrawal_value_collision_cex :
    withdrawalValue 11 1 = withdrawalValue 11 100001 ∧
    withdrawalUid (withdrawalValue 11 1) = withdrawalUid (withdrawalValue 11 100001) ∧
    (1 : Nat) ≠ 100001 := by
  refine ⟨by decide, by rw [show withdrawalValue 11 1 = withdrawalValue 11 100001 from by decide], by decide⟩

theorem withdrawalUid_eval (N i : Nat) :
    withdrawalUid (withdrawalValue N i) = 100000000 + ((i % N) * 100000 + i) := by
  rw [withdrawalValue, withdrawalUid]
  rw [Nat.mul_comm]
  omega

/-- C8 (amended): the withdrawal value, and hence the derived uid, is unique
per transaction index as long as all indices are below 100001 (in particular
for any run with `numTx ≤ 100001`), for any positive number of ready
accounts. -/
theorem withdrawal_value_injective_bounded (N i j : Nat) (hN : 1 ≤ N)
    (hi : i < 100001) (hj : j < 100001) (hij : i ≠ j) :
    withdrawalValue N i ≠ withdrawalValue N j ∧
    withdrawalUid (withdrawalValue N i) ≠ withdrawalUid (withdrawalValue N j) := by
  have key : (i % N) * 100000 + i ≠ (j % N) * 100000 + j := by
    have h1 : i % N ≤ i := Nat.mod_le i N
    have h2 : j % N ≤ j := Nat.mod_le j N
    omega
  constructor
  · intro h
    rw [withdrawalValue, withdrawalValue] at h
    have := Nat.eq_of_mul_eq_mul_right (show 0 < 10000000000 by decide) h
    omega
  · rw [withdrawalUid_eval, withdrawalUid_eval]
    omega

theorem withdrawal_value_injective_bounded_witness :
    withdrawalValue 11 1 ≠ withdrawalValue 11 2 ∧
    withdrawalUid (withdrawalValue 11 1) ≠ withdrawalUid (withdrawalValue 11 2) :=
  withdrawal_value_injective_bounded 11 1 2 (by decide) (by decide) (by decide) (by decide)

/-! ### StatCollector.gatherTransactionReceipts scan step
(src/src/stats/collector.ts lines 311-333)

```ts
const block = await provider.getBlockWithTransactions(blockNumber);
if (!block) { ... } else {
    scanBar.update({scannedBlocks:blockNumber});
    blockNumber++;
    if (block.transactions) {
        for (const tx of block.transactions) {
            const txHash = tx.hash;
            if (targetTxSet.has(txHash)) {
                succeededTransactions.push(new txStats(txHash, blockNumber));
                ...
```
The successful-fetch branch: the scan counter is incremented *before* the
transactions of the fetched block are recorded, so every recorded pair
carries the already-incremented counter. -/
structure ScanState where
  blockNumber : Nat
  succeeded : List (String × Nat)
deriving DecidableEq

def scanBlockFound (targetTxSet : List String) (st : ScanState)
    (blockTxs : List String) : ScanState :=
  let bn := st.blockNumber + 1
  { blockNumber := bn
    succeeded := st.succeeded ++
      (blockTxs.filter (fun h => targetTxSet.contains h)).map (fun h => (h, bn)) }

/-- C3: the code records the recognised hash of the block fetched at height 5
with block number 6 (the counter is incremented before recording), not with
the height 5 at which the transaction actually appears. -/
theorem scan_records_offbyone_height :
    (scanBlockFound ["0xabc"] ⟨5, []⟩ ["0xabc"]).succeeded = [("0xabc", 6)] ∧
    ("0xabc", 5) ∉ (scanBlockFound ["0xabc"] ⟨5, []⟩ ["0xabc"]).succeeded := by
  constructor
  · rfl
  · intro h
    simp [scanBlockFound] at h

/-! ### Distributor (src/src/stats/collector.ts lines 1156-1332)

`distribute` fixes the classification threshold before scanning balances:
```ts
const threshold = parseEther('1');
const shortAddresses = await this.findAccountsForDistribution(threshold);
```
and `findAccountsForDistribution(singleRunCost)` classifies each balance
result (lines 1292-1324): a timed-out query marks the account ready, any
other failed query skips it, a fetched balance `< singleRunCost` pushes
`distributeAccount(singleRunCost, addr, index)` onto the short heap, and any
other balance marks the account ready.  `calculateRuntimeCosts` (lines
1203-1236) computes `subAccountCost = totalTx * (gasPrice * baseGas + value)`
but is never invoked by `distribute`. -/
def parseEtherOne : Nat := 1000000000000000000

inductive BalanceResult
  | ok (balance : Nat)
  | timeout
  | failed
deriving DecidableEq

def classifyStep (singleRunCost : Nat) (acc : List Nat × List (Nat × Nat))
    (r : Nat × BalanceResult) : List Nat × List (Nat × Nat) :=
  match r.2 with
  | .ok b => if b < singleRunCost then (acc.1, acc.2 ++ [(r.1, singleRunCost)])
             else (acc.1 ++ [r.1], acc.2)
  | .timeout => (acc.1 ++ [r.1], acc.2)
  | .failed => acc

def findAccountsForDistribution (singleRunCost : Nat)
    (results : List (Nat × BalanceResult)) : List Nat × List (Nat × Nat) :=
  results.foldl (classifyStep singleRunCost) ([], [])

def distributeClassify (results : List (Nat × BalanceResult)) :
    List Nat × List (Nat × Nat) :=
  findAccountsForDistribution parseEtherOne results

def baseTxCost (gasPrice baseGas value : Nat) : Nat := gasPrice * baseGas + value

def subAccountCost (totalTx gasPrice baseGas value : Nat) : Nat :=
  totalTx * baseTxCost gasPrice baseGas value

/-- The classification predicate of the claim, written from the words of the spec
(`C = numTx × (gasPrice × baseGas + value)`), for comparison against the
the `distributeClassify` of the code. -/
def specNeedsTopUp (totalTx gasPrice baseGas value balance : Nat) : Prop :=
  balance < subAccountCost totalTx gasPrice baseGas value

/-- C4 counterexample: an account with 0.5 ether, under a run costing
`C = 2000 × (10^9 × 21000 + 1)` ≈ 0.042 ether, holds at least `C` (so the
claim marks it ready), yet `distribute` classifies it as needing top-up
because its balance is under the fixed 1-ether threshold. -/
theorem distributor_threshold_neq_cost_cex :
    (distributeClassify [(1, .ok 500000000000000000)]).2 = [(1, parseEtherOne)] ∧
    (distributeClassify [(1, .ok 500000000000000000)]).1 = [] ∧
    ¬ specNeedsTopUp 2000 1000000000 21000 1 500000000000000000 := by
  refine ⟨by decide, by decide, ?_⟩
  rw [specNeedsTopUp, subAccountCost, baseTxCost]
  decide

theorem classify_foldl_aux (cost : Nat) (results : List (Nat × BalanceResult)) :
    ∀ acc : List Nat × List (Nat × Nat),
      results.foldl (classifyStep cost) acc =
        (acc.1 ++ results.filterMap (fun r =>
            match r.2 with
            | .ok b => if b < cost then none else some r.1
            | .timeout => some r.1
            | .failed => none),
         acc.2 ++ results.filterMap (fun r =>
            match r.2 with
            | .ok b => if b < cost then some (r.1, cost) else none
            | _ => none)) := by
  induction results with
  | nil => intro acc; simp
  | cons r rs ih =>
      intro acc
      rw [List.foldl_cons, ih]
      rcases r with ⟨i, br⟩
      rcases br with b | _ | _
      · by_cases hb : b < cost
        · simp [classifyStep, hb, List.filterMap_cons]
        · simp [classifyStep, hb, List.filterMap_cons]
      · simp [classifyStep, List.filterMap_cons]
      · simp [classifyStep, List.filterMap_cons]

/-- C4 (amended): `distribute` classifies an account as needing top-up exactly
when its fetched balance is below the fixed threshold `parseEther('1')` =
10^18 wei (timeouts count as ready, other query failures are skipped); the
per-account requirement `C = numTx × (gasPrice × baseGas + value)` computed by
`calculateRuntimeCosts` plays no role in the classification. -/
theorem distributor_fixed_one_ether_threshold (results : List (Nat × BalanceResult)) :
    (distributeClassify results).2 =
      results.filterMap (fun r =>
        match r.2 with
        | .ok b => if b < 1000000000000000000 then some (r.1, parseEtherOne) else none
        | _ => none) ∧
    (distributeClassify results).1 =
      results.filterMap (fun r =>
        match r.2 with
        | .ok b => if b < 1000000000000000000 then none else some r.1
        | .timeout => some r.1
        | .failed => none) := by
  rw [distributeClassify, findAccountsForDistribution, classify_foldl_aux]
  exact ⟨by rfl, by rfl⟩

/-! ### Cross-chain reconciler database model
(src/unnamed/part_002; same statements in src/src/tools/crossChainListeners.ts)

The `txs` table is keyed by `uid` (primary key); nullable columns are
`Option`.  The L1 side writes rows through
```sql
INSERT INTO txs (uid, l2_txhash, l2_height, l2_timestamp, l1_txhash, l1_height, l1_timestamp)
VALUES (...) ON CONFLICT(uid) DO UPDATE SET
  l1_txhash=excluded.l1_txhash, l1_height=excluded.l1_height, l1_timestamp=excluded.l1_timestamp
```
(part_002 lines 214-220), and the rawblock handler (lines 282-291) supplies
`l2_txhash = ""`, `l2_height = 0`, `l2_timestamp = 0` as the incoming L2
placeholder values of every row. -/
structure TxRow where
  l2txhash : Option String
  l2height : Option Nat
  l2timestamp : Option Nat
  l1txhash : Option String
  l1height : Option Nat
  l1timestamp : Option Nat
deriving DecidableEq

structure L1TxInsert where
  uid : Nat
  l1txhash : String
  l1height : Nat
  l1timestamp : Nat

def insertTxL1 (txs : Nat → Option TxRow) (r : L1TxInsert) : Nat → Option TxRow :=
  fun u =>
    if u = r.uid then
      match txs r.uid with
      | some old => some { old with
          l1txhash := some r.l1txhash
          l1height := some r.l1height
          l1timestamp := some r.l1timestamp }
      | none => some {
          l2txhash := some ""
          l2height := some 0
          l2timestamp := some 0
          l1txhash := some r.l1txhash
          l1height := some r.l1height
          l1timestamp := some r.l1timestamp }
    else txs u

/-- The per-block `insertBlockData` transaction runs `insertTxStmt` for each
parsed transaction row in order (part_002 lines 222-225). -/
def insertBlockRows (txs : Nat → Option TxRow) (rows : List L1TxInsert) :
    Nat → Option TxRow :=
  rows.foldl insertTxL1 txs

/-- C10: processing an L1 block never modifies the L2 side of an existing
join row - after the per-block upsert fold, a row whose uid existed before
still exists and keeps its `l2_txhash`, `l2_height`, `l2_timestamp` values;
the `""`/0 L2 placeholders are written only when a brand-new uid is
inserted. -/
theorem l1_upsert_preserves_l2_columns (txs0 : Nat → Option TxRow)
    (rows : List L1TxInsert) (u : Nat) (old : TxRow) (h : txs0 u = some old) :
    (∃ row', insertBlockRows txs0 rows u = some row' ∧
        row'.l2txhash = old.l2txhash ∧
        row'.l2height = old.l2height ∧
        row'.l2timestamp = old.l2timestamp) ∧
    (∀ (txs : Nat → Option TxRow) (r : L1TxInsert), txs r.uid = none →
        insertTxL1 txs r r.uid = some {
          l2txhash := some ""
          l2height := some 0
          l2timestamp := some 0
          l1txhash := some r.l1txhash
          l1height := some r.l1height
          l1timestamp := some r.l1timestamp }) := by
  constructor
  · induction rows generalizing txs0 old with
    | nil => exact ⟨old, h, rfl, rfl, rfl⟩
    | cons r rs ih =>
        rw [insertBlockRows, List.foldl_cons]
        by_cases hu : u = r.uid
        · subst hu
          have hnew : insertTxL1 txs0 r r.uid = some { old with
              l1txhash := some r.l1txhash
              l1height := some r.l1height
              l1timestamp := some r.l1timestamp } := by
            rw [insertTxL1, if_pos rfl, h]
          obtain ⟨row', hrow, h1, h2, h3⟩ := ih (insertTxL1 txs0 r) _ hnew
          exact ⟨row', hrow, h1, h2, h3⟩
        · refine ih (insertTxL1 txs0 r) old ?_
          rw [insertTxL1, if_neg hu, h]
  · intro txs r hr
    rw [insertTxL1, if_pos rfl, hr]

theorem l1_upsert_preserves_l2_columns_witness :
    (∃ row', insertBlockRows
        (fun u => if u = 7 then
          some ⟨some "0xl2", some 3, some 40, none, none, none⟩ else none)
        [⟨7, "l1hash", 9, 100⟩] 7 = some row' ∧
        row'.l2txhash = some "0xl2" ∧
        row'.l2height = some 3 ∧
        row'.l2timestamp = some 40) ∧
    (∀ (txs : Nat → Option TxRow) (r : L1TxInsert), txs r.uid = none →
        insertTxL1 txs r r.uid = some {
          l2txhash := some ""
          l2height := some 0
          l2timestamp := some 0
          l1txhash := some r.l1txhash
          l1height := some r.l1height
          l1timestamp := some r.l1timestamp }) :=
  l1_upsert_preserves_l2_columns
    (fun u => if u = 7 then some ⟨some "0xl2", some 3, some 40, none, none, none⟩ else none)
    [⟨7, "l1hash", 9, 100⟩] 7 ⟨some "0xl2", some 3, some 40, none, none, none⟩ (by decide)

/-! ### L2 follower pump step (src/unnamed/part_002 lines 351-420)

One iteration of the `while (lastProcessed < latestTarget)` pump loop, for a
successfully fetched block at `nextHeight = lastProcessed + 1`.  The reorg
branch (lines 361-387):
```ts
if (lastProcessed > 0 && lastHash && block.parentHash !== lastHash) {
    const rollback = db.transaction((h) => { deleteL2Header.run(h); clearHeight.run(h); });
    rollback(lastProcessed);
    lastProcessed -= 1;
    if (lastProcessed > 0) { lastHash = header from db, else RPC fallback; }
    else { lastHash = null; }
    continue;
}
```
with `clearHeight` = `UPDATE txs SET l2_txhash=NULL, l2_height=NULL,
l2_timestamp=NULL WHERE l2_height = ?` and `deleteL2Header` = `DELETE FROM
l2_headers WHERE height = ?`.  The apply branch (lines 392-418) clears the
height being written, upserts one row per matching `WithdrawalQueued` log and
inserts the header, then advances.  The RPC-derived inputs (the fetched block
with its extracted withdrawal rows, the fallback hash, the wall clock) are
parameters of the step. -/
structure L2Header where
  hash : String
  timestamp : Nat
  createdAt : Nat
deriving DecidableEq

structure L2DB where
  l2headers : Nat → Option L2Header
  txs : Nat → Option TxRow

structure L2FollowerState where
  db : L2DB
  lastProcessed : Nat
  lastHash : Option String

structure L2Block where
  hash : String
  parentHash : String
  timestamp : Nat
  withdrawals : List (Nat × String)
deriving DecidableEq

def clearHeightTxs (txs : Nat → Option TxRow) (h : Nat) : Nat → Option TxRow :=
  fun u =>
    match txs u with
    | some row =>
        if row.l2height = some h then
          some { row with l2txhash := none, l2height := none, l2timestamp := none }
        else some row
    | none => none

def upsertL2 (txs : Nat → Option TxRow) (uid : Nat) (txh : String) (h ts : Nat) :
    Nat → Option TxRow :=
  fun u =>
    if u = uid then
      match txs uid with
      | some old => some { old with
          l2txhash := some txh, l2height := some h, l2timestamp := some ts }
      | none => some {
          l2txhash := some txh, l2height := some h, l2timestamp := some ts,
          l1txhash := none, l1height := none, l1timestamp := none }
    else txs u

def pumpApply (st : L2FollowerState) (block : L2Block) (now : Nat) : L2FollowerState :=
  let nextHeight := st.lastProcessed + 1
  let txs1 := clearHeightTxs st.db.txs nextHeight
  let txs2 := block.withdrawals.foldl
    (fun t w => upsertL2 t w.1 w.2 nextHeight block.timestamp) txs1
  let headers' : Nat → Option L2Header := fun x =>
    if x = nextHeight then some ⟨block.hash, block.timestamp, now⟩
    else st.db.l2headers x
  { db := { l2headers := headers', txs := txs2 }
    lastProcessed := nextHeight
    lastHash := some block.hash }

def pumpRollback (st : L2FollowerState) (rpcFallback : Option String) : L2FollowerState :=
  let db' : L2DB :=
    { l2headers := fun x => if x = st.lastProcessed then none else st.db.l2headers x
      txs := clearHeightTxs st.db.txs st.lastProcessed }
  let newLast := st.lastProcessed - 1
  let newHash : Option String :=
    if 0 < newLast then
      match db'.l2headers newLast with
      | some hdr => some hdr.hash
      | none => rpcFallback
    else none
  { db := db', lastProcessed := newLast, lastHash := newHash }

def pumpStep (st : L2FollowerState) (block : L2Block) (rpcFallback : Option String)
    (now : Nat) : L2FollowerState :=
  match st.lastHash with
  | some lh =>
      if 0 < st.lastProcessed ∧ block.parentHash ≠ lh then pumpRollback st rpcFallback
      else pumpApply st block now
  | none => pumpApply st block now

/-- C9: on a parentHash mismatch at the fetched height `lastProcessed + 1`
(with `lastProcessed > 0` and `lastHash` known), the pump step deletes the
`l2_headers` row at `lastProcessed`, nulls the `l2_*` columns of every `txs`
row whose `l2_height` equals `lastProcessed` (leaving the `l1_*` columns
intact), and steps `lastProcessed` back by one instead of advancing; in
particular the store holds no L2 header for height `nextHeight - 1` after the
step. -/
theorem pump_reorg_rollback (st : L2FollowerState) (block : L2Block)
    (rpcFallback : Option String) (now : Nat) (lh : String)
    (hlp : 0 < st.lastProcessed) (hlh : st.lastHash = some lh)
    (hne : block.parentHash ≠ lh) :
    (pumpStep st block rpcFallback now).db.l2headers st.lastProcessed = none ∧
    (∀ u row, st.db.txs u = some row → row.l2height = some st.lastProcessed →
        (pumpStep st block rpcFallback now).db.txs u =
          some { row with l2txhash := none, l2height := none, l2timestamp := none }) ∧
    (∀ u row, st.db.txs u = some row → row.l2height ≠ some st.lastProcessed →
        (pumpStep st block rpcFallback now).db.txs u = some row) ∧
    (pumpStep st block rpcFallback now).lastProcessed = st.lastProcessed - 1 := by
  have hstep : pumpStep st block rpcFallback now = pumpRollback st rpcFallback := by
    simp only [pumpStep, hlh]
    exact if_pos ⟨hlp, hne⟩
  rw [hstep]
  refine ⟨by rw [pumpRollback]; simp, ?_, ?_, by rw [pumpRollback]⟩
  · intro u row hu hrow
    rw [pumpRollback]
    simp only [clearHeightTxs, hu]
    rw [if_pos hrow]
  · intro u row hu hrow
    rw [pumpRollback]
    simp only [clearHeightTxs, hu]
    rw [if_neg hrow]

theorem pump_reorg_rollback_witness :
    (pumpStep
        ⟨⟨fun x => if x = 4 then some ⟨"h4", 10, 11⟩ else none,
          fun u => if u = 9 then some ⟨some "t", some 4, some 10, none, none, none⟩ else none⟩,
          4, some "h4"⟩
        ⟨"b5", "not-h4", 20, []⟩ none 99).db.l2headers 4 = none ∧
    (pumpStep
        ⟨⟨fun x => if x = 4 then some ⟨"h4", 10, 11⟩ else none,
          fun u => if u = 9 then some ⟨some "t", some 4, some 10, none, none, none⟩ else none⟩,
          4, some "h4"⟩
        ⟨"b5", "not-h4", 20, []⟩ none 99).lastProcessed = 3 := by
  have h := pump_reorg_rollback
    ⟨⟨fun x => if x = 4 then some ⟨"h4", 10, 11⟩ else none,
      fun u => if u = 9 then some ⟨some "t", some 4, some 10, none, none, none⟩ else none⟩,
      4, some "h4"⟩
    ⟨"b5", "not-h4", 20, []⟩ none 99 "h4" (by decide) rfl (by decide)
  exact ⟨h.1, h.2.2.2⟩

/-! ### L1 raw-block vout parsing (src/unnamed/part_002 lines 16-25, 72-148;
identical code in src/src/tools/crossChainListeners.ts lines 11-20, 67-143)

Byte buffers are `List Nat` with bytes below 256; `buf.getD i 0` models
`buf[i]`.  `readLE buf off n` is the little-endian read of `n` bytes
(`readUInt16LE`/`readUInt32LE`/`readBigUInt64LE`).  `readVarInt` follows the
Bitcoin VarInt decoder:
```ts
if (first < 0xfd) return [first, offset + 1];
if (first === 0xfd) return [buf.readUInt16LE(offset + 1), offset + 3];
if (first === 0xfe) return [buf.readUInt32LE(offset + 1), offset + 5];
const lo = buf.readUInt32LE(offset + 1); const hi = buf.readUInt32LE(offset + 5);
return [hi * 0x100000000 + lo, offset + 9];
```
`parseVoutStep` is one iteration of the vout loop of
`parseDogeCoinTransactions` (lines 113-132):
```ts
const valueLE = block.readBigUInt64LE(offset); offset += 8;
const [pkLen, offPK] = readVarInt(block, offset); offset = offPK;
const script = block.subarray(offset, offset + pkLen); offset += pkLen;
const p2pkh = isP2PKH(script);
let addrHash = p2pkh ? "" : script.subarray(3, 23).toString("hex");
if (addrHash === targetAddressHash) { uid = valueLE; }
```
The hex strings compared by the code are faithfully represented by the byte
lists they encode (`""` is `[]`). -/
def readLE (buf : List Nat) (offset : Nat) : Nat → Nat
  | 0 => 0
  | n + 1 => buf.getD offset 0 + 256 * readLE buf (offset + 1) n

def readVarInt (buf : List Nat) (offset : Nat) : Nat × Nat :=
  let first := buf.getD offset 0
  if first < 0xfd then (first, offset + 1)
  else if first = 0xfd then (readLE buf (offset + 1) 2, offset + 3)
  else if first = 0xfe then (readLE buf (offset + 1) 4, offset + 5)
  else (readLE buf (offset + 5) 4 * 0x100000000 + readLE buf (offset + 1) 4, offset + 9)

def isP2PKH (script : List Nat) : Bool :=
  script.length == 25 &&
  script.getD 0 0 == 0x76 &&
  script.getD 1 0 == 0xa9 &&
  script.getD 2 0 == 0x14 &&
  script.getD 23 0 == 0x88 &&
  script.getD 24 0 == 0xac

structure VoutScanState where
  offset : Nat
  uid : Nat
deriving DecidableEq

def parseVoutStep (block targetAddressHash : List Nat) (st : VoutScanState) :
    VoutScanState :=
  let valueLE := readLE block st.offset 8
  let pk := readVarInt block (st.offset + 8)
  let script := (block.drop pk.2).take pk.1
  let p2pkh := isP2PKH script
  let addrHash : List Nat := if p2pkh then [] else (script.drop 3).take 20
  { offset := pk.2 + pk.1
    uid := if addrHash = targetAddressHash then valueLE else st.uid }

def parseVouts (block targetAddressHash : List Nat) (offset voutCnt : Nat) :
    VoutScanState :=
  (List.range voutCnt).foldl (fun st _ => parseVoutStep block targetAddressHash st)
    ⟨offset, 0⟩

/-- A P2PKH output paying 110000000 satoshis to the configured 20-byte
target hash, exactly the shape of spec seed test 4. -/
def dogeTargetHash : List Nat := List.replicate 20 0xaa

def dogeP2PKHScript : List Nat := [0x76, 0xa9, 0x14] ++ dogeTargetHash ++ [0x88, 0xac]

def dogeVoutBytes : List Nat := [0x80, 0x77, 0x8e, 0x06, 0, 0, 0, 0] ++ [25] ++ dogeP2PKHScript

/-- The same output with the final OP_CHECKSIG byte corrupted, so the script
is not P2PKH. -/
def dogeBadScript : List Nat := [0x76, 0xa9, 0x14] ++ dogeTargetHash ++ [0x88, 0x00]

def dogeVoutBytesBad : List Nat := [0x80, 0x77, 0x8e, 0x06, 0, 0, 0, 0] ++ [25] ++ dogeBadScript

/-- C5: for an output whose script has exactly the P2PKH shape and whose hash
bytes 3..23 equal the configured target, the parser does NOT set `uid` to the
little-endian satoshi value of the output (it leaves the initial 0): the ternary
`p2pkh ? "" : script.subarray(3, 23)` gives P2PKH outputs an empty address
hash.  A corrupted, non-P2PKH script with the same bytes 3..23 conversely
DOES set `uid`, exhibiting the inversion. -/
theorem p2pkh_matching_inverted :
    isP2PKH dogeP2PKHScript = true ∧
    (dogeP2PKHScript.drop 3).take 20 = dogeTargetHash ∧
    readLE dogeVoutBytes 0 8 = 110000000 ∧
    (parseVouts dogeVoutBytes dogeTargetHash 0 1).uid = 0 ∧
    isP2PKH dogeBadScript = false ∧
    (parseVouts dogeVoutBytesBad dogeTargetHash 0 1).uid = 110000000 := by
  decide

/-! ### Transaction construction nonce assignment

EOA mode (src/src/runtime/eoa.ts lines 101-127): a sequential loop over
`i < numTx` with `senderIndex = i % validAccounts.length`; each iteration
reads `sender.getNonce()`, pushes the populated transaction onto
`transactions[senderIndex]`, and calls `sender.incrNonce()`.  Only the nonce
and the per-sender queue shape feed back into the loop state, so the state
carries the per-sender nonce counters and the nonce sequences of the queues.
-/
structure ConstructState where
  nonces : Nat → Nat
  queues : Nat → List Nat

def eoaStep (numAccounts : Nat) (st : ConstructState) (i : Nat) : ConstructState :=
  let s := i % numAccounts
  { nonces := fun j => if j = s then st.nonces j + 1 else st.nonces j
    queues := fun j => if j = s then st.queues j ++ [st.nonces s] else st.queues j }

def eoaConstruct (numAccounts : Nat) (init : Nat → Nat) (numTx : Nat) : ConstructState :=
  (List.range numTx).foldl (eoaStep numAccounts) ⟨init, fun _ => []⟩

/-- In the sequential EOA loop, the queue of every sender is the contiguous
ascending run starting at the nonce observed at enqueue time. -/
theorem eoaConstruct_contiguous_run (numAccounts : Nat) (init : Nat → Nat)
    (numTx : Nat) : ∀ j, init j ≤ (eoaConstruct numAccounts init numTx).nonces j ∧
      (eoaConstruct numAccounts init numTx).queues j =
        List.range' (init j) ((eoaConstruct numAccounts init numTx).nonces j - init j) := by
  suffices h : ∀ (l : List Nat) (st : ConstructState),
      (∀ j, init j ≤ st.nonces j ∧
        st.queues j = List.range' (init j) (st.nonces j - init j)) →
      (∀ j, init j ≤ (l.foldl (eoaStep numAccounts) st).nonces j ∧
        (l.foldl (eoaStep numAccounts) st).queues j =
          List.range' (init j) ((l.foldl (eoaStep numAccounts) st).nonces j - init j)) by
    exact h (List.range numTx) ⟨init, fun _ => []⟩ (fun j => ⟨Nat.le_refl _, by simp⟩)
  intro l
  induction l with
  | nil => intro st hst; exact hst
  | cons i rest ih =>
      intro st hst
      rw [List.foldl_cons]
      refine ih _ (fun j => ?_)
      obtain ⟨hle, hq⟩ := hst j
      by_cases hj : j = i % numAccounts
      · refine ⟨by simp only [eoaStep, ← hj, eq_self_iff_true, if_true]; omega, ?_⟩
        simp only [eoaStep, ← hj, eq_self_iff_true, if_true]
        rw [hq]
        have hrange : List.range' (init j) (st.nonces j - init j) ++ [st.nonces j] =
            List.range' (init j) (st.nonces j - init j + 1) := by
          rw [List.range'_concat]
          simp only [Nat.one_mul]
          congr 2
          omega
        rw [hrange]
        congr 1
        omega
      · refine ⟨by simp only [eoaStep, if_neg hj]; omega, ?_⟩
        simp only [eoaStep, if_neg hj]
        exact hq

/-! ERC-20 mode, parallel construction path (src/src/runtime/erc20.ts lines
244-310): transactions are processed in windows of `batchSize = 50` indices.
Inside a window, every promise body assigns
`transaction.nonce = sender.getNonce()` before `await Promise.all` resolves,
and the `sender.incrNonce()` calls run only afterwards, in the
sort-by-index `forEach` (lines 299-309).  So all transactions of a window
read the nonce of their sender as it stood when the window started, and the
counter advances only between windows. -/
def erc20Batch (numAccounts : Nat) (nonces : Nat → Nat) (lo hi : Nat) :
    List (Nat × Nat) :=
  (List.range' lo (hi - lo)).map (fun j => (j % numAccounts, nonces (j % numAccounts)))

def erc20NoncesAfter (numAccounts : Nat) (nonces : Nat → Nat) (lo hi : Nat) :
    Nat → Nat :=
  fun s => nonces s + ((List.range' lo (hi - lo)).filter (fun j => j % numAccounts == s)).length

def erc20Construct (numAccounts numTx : Nat) (init : Nat → Nat) : List (Nat × Nat) :=
  ((List.range ((numTx + 49) / 50)).foldl
    (fun acc k =>
      let lo := 50 * k
      let hi := min (lo + 50) numTx
      (acc.1 ++ erc20Batch numAccounts acc.2 lo hi,
       erc20NoncesAfter numAccounts acc.2 lo hi))
    (([] : List (Nat × Nat)), init)).1

/-- C1: evaluated on the ERC-20 parallel construction path with one ready
account (initial nonce 0) and `numTx = 2`, both transactions of the sender
receive nonce 0 - the nonce sequence of the sender `[0, 0]` is not strictly
increasing, violating the claimed invariant; the sequential EOA path on the
same input produces the contiguous run `[0, 1]`. -/
theorem erc20_parallel_duplicate_nonce :
    erc20Construct 1 2 (fun _ => 0) = [(0, 0), (0, 0)] ∧
    ¬ List.Chain' (· < ·) ((erc20Construct 1 2 (fun _ => 0)).map (fun p => p.2)) ∧
    (eoaConstruct 1 (fun _ => 0) 2).queues 0 = [0, 1] := by
  refine ⟨by decide, ?_, by decide⟩
  intro h
  rw [show (erc20Construct 1 2 (fun _ => 0)).map (fun p => p.2) = [0, 0] from by decide] at h
  simp at h

/-! ### Signer.signTransactionsMultiThreaded
(src/src/runtime/signer.ts lines 194-303; worker in src/unnamed/part_004
lines 59-120)

The orchestrator splits the flat transaction list into contiguous slices:
```ts
const batchSize = Math.ceil(transactions.length / workerCount);
for (let i = 0; i < workerCount; i++) {
    const start = i * batchSize;
    const end = Math.min(start + batchSize, transactions.length);
    if (start < transactions.length) { workerBatches.push({ ..., startIndex: start }); }
}
```
Each worker signs its slice sequentially and tags
`originalIndex: startIndex + i` (part_004 line 94); the orchestrator
flattens all results, sorts by `originalIndex` and projects the signed
bytes (signer.ts lines 285-289).  The signature bytes of global position `j`
are a function of `j` alone (the slice element `transactions[j]` and the
account index `accounts[j % accounts.length].mnemonicIndex`), abstracted
here as `g : Nat → β`. -/
def signerSlices (len workerCount : Nat) : List (Nat × Nat) :=
  let bs := (len + workerCount - 1) / workerCount
  (List.range workerCount).filterMap (fun i =>
    let start := i * bs
    if start < len then some (start, min (start + bs) len) else none)

def workerSign (g : Nat → β) (slice : Nat × Nat) : List (Nat × β) :=
  (List.range (slice.2 - slice.1)).map (fun k => (slice.1 + k, g (slice.1 + k)))

def multiThreadSign (g : Nat → β) (len workerCount : Nat) : List β :=
  ((((signerSlices len workerCount).map (workerSign g)).flatten).mergeSort
    (fun a b => decide (a.1 ≤ b.1))).map (fun p => p.2)

theorem workerSign_eq_range' (g : Nat → β) (s e : Nat) :
    workerSign g (s, e) = (List.range' s (e - s)).map (fun j => (j, g j)) := by
  rw [workerSign, List.range'_eq_map_range, List.map_map]
  rfl

theorem slices_flatten_aux (g : Nat → β) (len bs : Nat) : ∀ k : Nat,
    (((List.range k).filterMap (fun i =>
        if i * bs < len then some (i * bs, min (i * bs + bs) len) else none)).map
      (workerSign g)).flatten
    = (List.range' 0 (min (k * bs) len)).map (fun j => (j, g j)) := by
  intro k
  induction k with
  | zero => simp
  | succ k ih =>
      have hkk : (k + 1) * bs = k * bs + bs := by ring
      rw [List.range_succ, List.filterMap_append, List.map_append, List.flatten_append, ih]
      by_cases h : k * bs < len
      · rw [List.filterMap_cons]
        simp only [List.filterMap_nil, if_pos h]
        simp only [List.map_cons, List.map_nil, List.flatten_cons, List.flatten_nil,
          List.append_nil]
        rw [workerSign_eq_range']
        rw [show min (k * bs) len = k * bs from by omega]
        rw [← List.map_append]
        have happ := List.range'_append 0 (k * bs) (min (k * bs + bs) len - k * bs) 1
        rw [Nat.one_mul, Nat.zero_add] at happ
        rw [happ]
        have harg : min (k * bs + bs) len - k * bs + k * bs = min ((k + 1) * bs) len := by
          omega
        rw [harg]
      · rw [List.filterMap_cons]
        simp only [List.filterMap_nil, if_neg h]
        simp only [List.map_nil, List.flatten_nil, List.append_nil]
        congr 2
        omega

theorem signer_flatten (g : Nat → β) (len W : Nat) (hW : 1 ≤ W) :
    ((signerSlices len W).map (workerSign g)).flatten =
      (List.range len).map (fun j => (j, g j)) := by
  rw [signerSlices]
  rw [slices_flatten_aux g len ((len + W - 1) / W) W]
  have hle : len ≤ W * ((len + W - 1) / W) := by
    have h1 := ceil_mul_ge len W hW
    have h2 : W * ((len + W - 1) / W) = (len + W - 1) / W * W := Nat.mul_comm _ _
    omega
  rw [show min (W * ((len + W - 1) / W)) len = len from by omega]
  rw [List.range_eq_range']

theorem signer_flat_sorted (g : Nat → β) (len : Nat) :
    ((List.range len).map (fun j => (j, g j))).Pairwise
      (fun a b => (decide (a.1 ≤ b.1)) = true) := by
  refine List.Pairwise.map _ ?_ (List.pairwise_lt_range len)
  intro a b hab
  simp only [decide_eq_true_eq]
  exact Nat.le_of_lt hab

/-- C7: multi-threaded signing preserves global order - splitting the input
into contiguous worker slices, tagging every signature with
`originalIndex = startIndex + position`, flattening and sorting by that index
returns exactly the sequential signing of the whole list in order. -/
theorem multithreaded_signing_preserves_order (g : Nat → β) (len W : Nat)
    (hW : 1 ≤ W) : multiThreadSign g len W = (List.range len).map g := by
  rw [multiThreadSign, signer_flatten g len W hW,
    List.mergeSort_of_sorted (signer_flat_sorted g len), List.map_map]
  rfl

theorem multithreaded_signing_preserves_order_witness :
    multiThreadSign (fun j => 10 * j) 5 2 = (List.range 5).map (fun j => 10 * j) :=
  multithreaded_signing_preserves_order (fun j => 10 * j) 5 2 (by decide)

/-! ### Batcher.batchTransactions packing and per-sender ordering
(src/src/runtime/eoa.ts lines 369-538)

```ts
const concurrency = _concurrency || senderQueues.length;
const effectiveConcurrency = Math.min(concurrency, senderQueues.length);
const allBatches = [ [] x effectiveConcurrency ];
for (let accountIdx = 0; accountIdx < senderQueues.length; accountIdx++) {
    const queue = senderQueues[accountIdx];
    const chargeWorker = accountIdx % effectiveConcurrency;
    const workerBatchList = allBatches[chargeWorker];
    for (const tx of queue) {
        const lastBatch = workerBatchList.at(-1);
        if (lastBatch && lastBatch.length < batchSize) { lastBatch.push(tx); }
        else { workerBatchList.push([tx]); }
    }
}
```
then worker `w` iterates `allBatches[w]` in order, one HTTP POST per batch
(lines 444-508).  The mutable array `allBatches` is modelled as a function
from worker index to its batch list; `pushTx` is the inner-loop body and
`packWorkerBatchesFrom` the outer loop with its running `accountIdx`. -/
def effectiveConcurrency (copt : Option Nat) (numQueues : Nat) : Nat :=
  min (match copt with
       | some c => if c = 0 then numQueues else c
       | none => numQueues) numQueues

def pushTx (batchSize : Nat) (batches : List (List α)) (tx : α) : List (List α) :=
  match batches.getLast? with
  | some lastBatch =>
      if lastBatch.length < batchSize then batches.dropLast ++ [lastBatch ++ [tx]]
      else batches ++ [[tx]]
  | none => [[tx]]

def pushQueue (batchSize : Nat) (batches : List (List α)) (queue : List α) :
    List (List α) :=
  queue.foldl (pushTx batchSize) batches

def packStep (W batchSize : Nat) (allBatches : Nat → List (List α))
    (p : Nat × List α) : Nat → List (List α) :=
  fun w => if w = p.1 % W then pushQueue batchSize (allBatches (p.1 % W)) p.2
           else allBatches w

def packWorkerBatchesFrom (W batchSize : Nat) :
    Nat → (Nat → List (List α)) → List (List α) → Nat → List (List α)
  | _, st, [] => st
  | i, st, q :: qs =>
      packWorkerBatchesFrom W batchSize (i + 1) (packStep W batchSize st (i, q)) qs

def packWorkerBatches (queues : List (List α)) (W batchSize : Nat) :
    Nat → List (List α) :=
  packWorkerBatchesFrom W batchSize 0 (fun _ => []) queues

/-- Tags every element of the `i`-th queue with its sender index `i + start`,
so that provenance of dispatched transactions can be traced. -/
def tagFrom (start : Nat) : List (List β) → List (List (Nat × β))
  | [] => []
  | q :: qs => q.map (fun x => (start, x)) :: tagFrom (start + 1) qs

/-- The concatenation, in sender order, of the queues assigned to worker `w`
(those whose index is congruent to `w` modulo `W`). -/
def assignedConcat (W w : Nat) : Nat → List (List α) → List α
  | _, [] => []
  | i, q :: qs => (if i % W = w then q else []) ++ assignedConcat W w (i + 1) qs

theorem pushTx_flatten (B : Nat) (bs : List (List α)) (tx : α) :
    (pushTx B bs tx).flatten = bs.flatten ++ [tx] := by
  rw [pushTx]
  split
  · rename_i lastBatch h
    have hsplit : bs.dropLast ++ [lastBatch] = bs := List.dropLast_append_getLast? _ h
    by_cases hlen : lastBatch.length < B
    · rw [if_pos hlen]
      calc (bs.dropLast ++ [lastBatch ++ [tx]]).flatten
          = (bs.dropLast ++ [lastBatch]).flatten ++ [tx] := by
            simp [List.flatten_append, List.append_assoc]
        _ = bs.flatten ++ [tx] := by rw [hsplit]
    · rw [if_neg hlen]
      simp [List.flatten_append]
  · rename_i h
    rw [List.getLast?_eq_none_iff] at h
    subst h
    simp

theorem pushQueue_flatten (B : Nat) (q : List α) :
    ∀ bs : List (List α), (pushQueue B bs q).flatten = bs.flatten ++ q := by
  induction q with
  | nil => intro bs; simp [pushQueue]
  | cons x xs ih =>
      intro bs
      rw [pushQueue, List.foldl_cons]
      have := ih (pushTx B bs x)
      rw [pushQueue] at this
      rw [this, pushTx_flatten]
      simp [List.append_assoc]

theorem pushTx_length_le (B : Nat) (hB : 1 ≤ B) (bs : List (List α)) (tx : α)
    (hbs : ∀ b ∈ bs, b.length ≤ B) : ∀ b ∈ pushTx B bs tx, b.length ≤ B := by
  intro b hb
  rw [pushTx] at hb
  revert hb
  split
  · rename_i lastBatch h
    intro hb
    have hsplit : bs.dropLast ++ [lastBatch] = bs := List.dropLast_append_getLast? _ h
    have hlast : lastBatch ∈ bs := by
      rw [← hsplit]
      exact List.mem_append_right _ (List.mem_singleton_self _)
    by_cases hlen : lastBatch.length < B
    · rw [if_pos hlen] at hb
      rcases List.mem_append.mp hb with hb1 | hb2
      · refine hbs b ?_
        rw [← hsplit]
        exact List.mem_append_left _ hb1
      · simp only [List.mem_singleton] at hb2
        subst hb2
        simp only [List.length_append, List.length_singleton]
        omega
    · rw [if_neg hlen] at hb
      rcases List.mem_append.mp hb with hb1 | hb2
      · exact hbs b hb1
      · simp only [List.mem_singleton] at hb2
        subst hb2
        simpa using hB
  · rename_i h
    intro hb
    simp only [List.mem_singleton] at hb
    subst hb
    simpa using hB

theorem pushQueue_length_le (B : Nat) (hB : 1 ≤ B) (q : List α) :
    ∀ bs : List (List α), (∀ b ∈ bs, b.length ≤ B) →
      ∀ b ∈ pushQueue B bs q, b.length ≤ B := by
  induction q with
  | nil => intro bs hbs; exact hbs
  | cons x xs ih =>
      intro bs hbs
      rw [pushQueue, List.foldl_cons]
      exact ih (pushTx B bs x) (pushTx_length_le B hB bs x hbs)

theorem packFrom_flatten (W B : Nat) (qs : List (List α)) :
    ∀ (i : Nat) (st : Nat → List (List α)) (w : Nat),
      (packWorkerBatchesFrom W B i st qs w).flatten =
        (st w).flatten ++ assignedConcat W w i qs := by
  induction qs with
  | nil => intro i st w; simp [packWorkerBatchesFrom, assignedConcat]
  | cons q rest ih =>
      intro i st w
      rw [packWorkerBatchesFrom, ih, assignedConcat]
      by_cases h : w = i % W
      · rw [packStep]
        simp only [if_pos h]
        rw [pushQueue_flatten, ← h, if_pos rfl]
        simp [List.append_assoc]
      · rw [packStep]
        simp only [if_neg h]
        rw [if_neg (fun hc => h hc.symm)]
        simp

theorem packFrom_length_le (W B : Nat) (hB : 1 ≤ B) (qs : List (List α)) :
    ∀ (i : Nat) (st : Nat → List (List α)),
      (∀ w, ∀ b ∈ st w, b.length ≤ B) →
      ∀ w, ∀ b ∈ packWorkerBatchesFrom W B i st qs w, b.length ≤ B := by
  induction qs with
  | nil => intro i st hst; exact hst
  | cons q rest ih =>
      intro i st hst
      rw [packWorkerBatchesFrom]
      refine ih (i + 1) _ (fun w => ?_)
      rw [packStep]
      by_cases h : w = i % W
      · simp only [if_pos h]
        exact pushQueue_length_le B hB q _ (hst _)
      · simp only [if_neg h]
        exact hst w

theorem filter_tag_map (q : List β) (i s : Nat) :
    (q.map (fun x => (i, x))).filter (fun p => p.1 == s) =
      if i = s then q.map (fun x => (i, x)) else [] := by
  induction q with
  | nil => simp
  | cons x xs ih =>
      by_cases h : i = s
      · simp only [if_pos h] at ih ⊢
        simp [List.filter_cons, h, ih]
      · simp only [if_neg h] at ih ⊢
        simp [List.filter_cons, h, ih]

theorem assignedConcat_filter_tag (W s : Nat) (queues : List (List β)) :
    ∀ i : Nat,
      (assignedConcat W (s % W) i (tagFrom i queues)).filter (fun p => p.1 == s) =
        if i ≤ s ∧ s < i + queues.length then
          (queues.getD (s - i) []).map (fun x => (s, x))
        else [] := by
  induction queues with
  | nil =>
      intro i
      rw [if_neg (by simp only [List.length_nil]; omega)]
      simp [tagFrom, assignedConcat]
  | cons q rest ih =>
      intro i
      rw [tagFrom, assignedConcat, List.filter_append]
      by_cases hi : i = s
      · subst hi
        rw [if_pos rfl, filter_tag_map, if_pos rfl, ih (i + 1), if_neg (by omega),
          if_pos (by simp only [List.length_cons]; omega)]
        simp
      · have hhead : ((if i % W = s % W then q.map (fun x => (i, x)) else []).filter
            (fun p => p.1 == s)) = [] := by
          by_cases hw : i % W = s % W
          · rw [if_pos hw, filter_tag_map, if_neg hi]
          · rw [if_neg hw]
            rfl
        rw [hhead, List.nil_append, ih (i + 1)]
        by_cases hrange : i + 1 ≤ s ∧ s < i + 1 + rest.length
        · rw [if_pos hrange, if_pos (by simp only [List.length_cons]; omega)]
          have hsub : s - i = (s - (i + 1)) + 1 := by omega
          rw [hsub]
          rfl
        · rw [if_neg hrange, if_neg (by simp only [List.length_cons]; omega)]

/-- C2: in `Batcher.batchTransactions` with `W = min(concurrency, #queues)`
workers, sender `s` is handled by worker `s mod W`; the flattened dispatch
sequence of that worker (its batches sent sequentially, each of size at most
`batchSize`) contains exactly the queue of sender `s`, in queue order.  Since the
input queues are ordered by nonce, the transactions of every sender reach the node
in ascending nonce order. -/
theorem batcher_per_sender_queue_order {β : Type} (queues : List (List β))
    (copt : Option Nat) (B : Nat) (hB : 1 ≤ B) :
    (∀ s, s < queues.length →
      ((packWorkerBatches (tagFrom 0 queues) (effectiveConcurrency copt queues.length) B
          (s % effectiveConcurrency copt queues.length)).flatten).filter
        (fun p => p.1 == s)
        = (queues.getD s []).map (fun x => (s, x))) ∧
    (∀ w, ∀ batch ∈ packWorkerBatches (tagFrom 0 queues)
        (effectiveConcurrency copt queues.length) B w, batch.length ≤ B) := by
  constructor
  · intro s hs
    rw [packWorkerBatches, packFrom_flatten]
    simp only [List.flatten_nil, List.nil_append]
    rw [assignedConcat_filter_tag (effectiveConcurrency copt queues.length) s queues 0,
      if_pos (by omega)]
    simp
  · intro w batch hb
    exact packFrom_length_le _ B hB _ 0 _ (by simp) w batch hb

theorem batcher_per_sender_queue_order_witness :
    ((packWorkerBatches (tagFrom 0 [[10, 11], [20]]) (effectiveConcurrency (some 1) 2) 2
        (0 % effectiveConcurrency (some 1) 2)).flatten).filter (fun p => p.1 == 0)
      = [(0, 10), (0, 11)] ∧
    ∀ w, ∀ batch ∈ packWorkerBatches (tagFrom 0 [[10, 11], [20]])
        (effectiveConcurrency (some 1) 2) 2 w, batch.length ≤ 2 := by
  have h := batcher_per_sender_queue_order [[10, 11], [20]] (some 1) 2 (by decide)
  refine ⟨?_, h.2⟩
  have h0 := h.1 0 (by decide)
  simpa using h0
